import Mathlib

/-!
Verification of the container-code extraction and rename engine.

Shallow embedding of the Python sources (`src/tools.py`, `src/settings.py`,
`src/agent.py`, `src/main.py`).  Strings are modelled as `List Char`
(Python strings index by code point, as `List Char` does).  Python floats
are modelled as exact rationals (`ℚ`): every confidence value in the source
is a small sum of decimal constants.  Character case mapping is modelled
for ASCII and the Cyrillic block actually used by the source's keyword and
prefix tables; `\d` and `[A-Z]` character classes are modelled over ASCII.
-/

set_option maxRecDepth 10000

namespace PdfAgent

/-! ## Character helpers -/

/-- `[A-Za-z]` — the `[A-Z]` class of the source's patterns, which are all
compiled with `re.IGNORECASE`. -/
def isLatinLetter (c : Char) : Bool :=
  (65 ≤ c.toNat && c.toNat ≤ 90) || (97 ≤ c.toNat && c.toNat ≤ 122)

/-- `[A-Z]` without `IGNORECASE` (used by `VALIDATION_PATTERN`). -/
def isUpperLatin (c : Char) : Bool :=
  65 ≤ c.toNat && c.toNat ≤ 90

/-- `\d`, modelled over ASCII digits. -/
def isDigitCh (c : Char) : Bool :=
  48 ≤ c.toNat && c.toNat ≤ 57

/-- `\s` — whitespace as it occurs in the documents handled here. -/
def isSpaceCh (c : Char) : Bool :=
  c = ' ' || c = '\t' || c = '\n' || c = '\r'

/-- The separator class `[-\s_]` of `PRIORITY_PATTERN` / `FALLBACK_PATTERN`. -/
def isSepCh (c : Char) : Bool :=
  c = '-' || c = '_' || isSpaceCh c

/-- `\w` for the `\b` word boundary: Latin letters, digits, underscore and
the Cyrillic letters appearing in the documents. -/
def isWordCh (c : Char) : Bool :=
  isLatinLetter c || isDigitCh c || c = '_' ||
  (0x410 ≤ c.toNat && c.toNat ≤ 0x44F) || c = 'Ё' || c = 'ё'

/-- Python `str.lower`, for ASCII and the Cyrillic block. -/
def pyToLower (c : Char) : Char :=
  if 65 ≤ c.toNat && c.toNat ≤ 90 then Char.ofNat (c.toNat + 32)
  else if 0x410 ≤ c.toNat && c.toNat ≤ 0x42F then Char.ofNat (c.toNat + 32)
  else if c = 'Ё' then 'ё'
  else c

/-- Python `str.upper`, for ASCII and the Cyrillic block. -/
def pyToUpper (c : Char) : Char :=
  if 97 ≤ c.toNat && c.toNat ≤ 122 then Char.ofNat (c.toNat - 32)
  else if 0x430 ≤ c.toNat && c.toNat ≤ 0x44F then Char.ofNat (c.toNat - 32)
  else if c = 'ё' then 'Ё'
  else c

/-! ## String helpers -/

/-- `.replace(" ", "").replace("-", "").replace("_", "")` — the separator
stripping chain used before every validation in the source. -/
def stripSeps (cs : List Char) : List Char :=
  cs.filter fun c => !(c = ' ' || c = '-' || c = '_')

/-- Python `str.lower` on a whole string. -/
def lowerStr (cs : List Char) : List Char := cs.map pyToLower

/-- Python `str.upper` on a whole string. -/
def upperStr (cs : List Char) : List Char := cs.map pyToUpper

/-- Python `str.strip()` (whitespace from both ends). -/
def pyStrip (cs : List Char) : List Char :=
  (((cs.dropWhile isSpaceCh).reverse).dropWhile isSpaceCh).reverse

/-- Python `hay.find(sub)`: index of the first occurrence of `sub` in
`hay`, `none` standing for the source's `-1` sentinel. -/
def strFindAux (sub : List Char) : List Char → Nat → Option Nat
  | hay, i =>
    if sub.isPrefixOf hay then some i
    else
      match hay with
      | [] => none
      | _ :: t => strFindAux sub t (i + 1)

def strFind (hay sub : List Char) : Option Nat := strFindAux sub hay 0

/-- Python `sub in hay`. -/
def pySubstr (hay sub : List Char) : Bool := (strFind hay sub).isSome

/-- Python `list(dict.fromkeys(xs))`: de-duplicate keeping first
occurrences, preserving order (`seen` holds the keys inserted so far). -/
def dedupFirstAux (seen : List (List Char)) : List (List Char) → List (List Char)
  | [] => []
  | x :: xs =>
    if x ∈ seen then dedupFirstAux seen xs
    else x :: dedupFirstAux (x :: seen) xs

def dedupFirst (l : List (List Char)) : List (List Char) := dedupFirstAux [] l

/-! ## Static tables (`src/settings.py`) -/

/-- `KNOWN_CONTAINER_PREFIXES`. -/
def KnownContainerPrefixes : List (List Char) :=
  ["TEMU".data, "MSCU".data, "TKRU".data, "TGHU".data, "FCIU".data,
   "HLBU".data, "CMAU".data, "NYKU".data, "GESU".data, "TCLU".data,
   "WHLU".data, "PONU".data, "COSU".data, "HDMU".data, "KKFU".data,
   "GLDU".data, "TCNU".data, "SNBU".data, "BMOU".data, "DFSU".data,
   "SUDU".data, "APZU".data, "EISU".data, "CAXU".data, "MEDU".data,
   "OOCU".data, "TRLU".data, "INKU".data, "MSKU".data, "CRXU".data,
   "MRKU".data, "CXDU".data]

/-- `EXCLUDED_PREFIXES`. -/
def ExcludedPrefixes : List (List Char) :=
  ["OKNO".data, "OKPO".data, "OGRN".data, "INN".data, "КПП".data]

/-- `CONTAINER_KEYWORDS`. -/
def ContainerKeywords : List (List Char) :=
  ["контейнер".data, "container".data, "наименование груза".data,
   "груз".data, "cargo".data, "код".data, "номер".data, "no".data,
   "№".data, "number".data, "наименование".data]

/-! ## `VALIDATION_PATTERN` (`^[A-Z]{4}\d{7}$`) -/

/-- Exactly 4 uppercase Latin letters followed by exactly 7 digits. -/
def shapeOK (cs : List Char) : Bool :=
  cs.length = 11 && (cs.take 4).all isUpperLatin && (cs.drop 4).all isDigitCh

/-- `VALIDATION_PATTERN.match(s)` as a Bool.  Python's `$` matches at the
end of the string or just before a newline at the end of the string, so
`"ABCD1234567\n"` also matches. -/
def validationMatch (cs : List Char) : Bool :=
  shapeOK cs ||
  (match cs.getLast? with
   | some c => c = '\n' && shapeOK cs.dropLast
   | none => false)

/-! ## `normalize_code_direct` (`src/tools.py` 481–495) -/

inductive NormResult where
  /-- the normalized code is returned -/
  | ok (code : List Char)
  /-- `"ERROR: пустой код"` -/
  | emptyCode
  /-- `"ERROR: код '...' не соответствует формату (4 буквы + 7 цифр)"` -/
  | invalidFormat (normalized : List Char)
deriving DecidableEq, Repr

def normalizeCode (raw : List Char) : NormResult :=
  if raw = [] then .emptyCode
  else
    let normalized := upperStr (stripSeps raw)
    if validationMatch normalized then .ok normalized
    else .invalidFormat normalized

/-! ## A small backtracking regex engine

Python `re` semantics for the three constant patterns of `settings.py`:
leftmost match, alternatives tried in written order, greedy `*`/`?` with
backtracking, `findall` scanning forward and resuming after each match. -/

inductive Re where
  /-- a single-character class -/
  | cls (p : Char → Bool)
  /-- a case-insensitive literal (all patterns carry `re.IGNORECASE`) -/
  | litCI (s : List Char)
  | seq (a b : Re)
  /-- prioritized alternation, `a` first -/
  | alt (a b : Re)
  /-- greedy `?` -/
  | opt (a : Re)
  /-- greedy `*` over a character class -/
  | starCls (p : Char → Bool)
  /-- `{n}` over a character class -/
  | repCls (n : Nat) (p : Char → Bool)
  /-- a capturing group -/
  | grp (a : Re)
  /-- `\b` -/
  | wb

/-- `\b` holds where exactly one side is a word character. -/
def boundaryOK (prev : Option Char) (rest : List Char) : Bool :=
  let pw := match prev with | some c => isWordCh c | none => false
  let nw := match rest with | c :: _ => isWordCh c | [] => false
  pw != nw

/-- Deterministic run of a case-insensitive literal. -/
def litRun : List Char → Option Char → List Char → Option (Option Char × List Char)
  | [], prev, rest => some (prev, rest)
  | e :: es, _, c :: cs =>
      if pyToLower c = pyToLower e then litRun es (some c) cs else none
  | _ :: _, _, [] => none

/-- Deterministic run of `{n}` over a character class. -/
def repRun : Nat → (Char → Bool) → Option Char → List Char →
    Option (Option Char × List Char)
  | 0, _, prev, rest => some (prev, rest)
  | n + 1, p, _, c :: cs => if p c then repRun n p (some c) cs else none
  | _ + 1, _, _, [] => none

/-- One match attempt's outcome: last consumed char, remaining input,
captured groups in order. -/
abbrev MRes := Option Char × List Char × List (List Char)

/-- CPS backtracking matcher.  `prev` is the character before the current
position (for `\b`), `caps` the captures finished so far, `k` the
continuation for the rest of the pattern. -/
def mrun : Nat → Re → Option Char → List Char → List (List Char) →
    (Option Char → List Char → List (List Char) → Option MRes) → Option MRes
  | 0, _, _, _, _, _ => none
  | fuel + 1, r, prev, rest, caps, k =>
    match r with
    | .cls p =>
      match rest with
      | [] => none
      | c :: cs => if p c then k (some c) cs caps else none
    | .litCI s =>
      match litRun s prev rest with
      | some (p', r') => k p' r' caps
      | none => none
    | .seq a b =>
      mrun fuel a prev rest caps fun p' r' c' => mrun fuel b p' r' c' k
    | .alt a b =>
      match mrun fuel a prev rest caps k with
      | some res => some res
      | none => mrun fuel b prev rest caps k
    | .opt a =>
      match mrun fuel a prev rest caps k with
      | some res => some res
      | none => k prev rest caps
    | .starCls p =>
      match rest with
      | c :: cs =>
        if p c then
          match mrun fuel (.starCls p) (some c) cs caps k with
          | some res => some res
          | none => k prev rest caps
        else k prev rest caps
      | [] => k prev rest caps
    | .repCls n p =>
      match repRun n p prev rest with
      | some (p', r') => k p' r' caps
      | none => none
    | .grp a =>
      mrun fuel a prev rest caps fun p' r' c' =>
        k p' r' (c' ++ [rest.take (rest.length - r'.length)])
    | .wb => if boundaryOK prev rest then k prev rest caps else none

def matchFuel (n : Nat) : Nat := (n + 64) * 64

/-- Try to match `r` at the current position. -/
def tryMatch (r : Re) (prev : Option Char) (rest : List Char) : Option MRes :=
  mrun (matchFuel rest.length) r prev rest [] fun p' r' c' => some (p', r', c')

/-- `re.findall` scan: at each position try a match; on success resume
after it, otherwise advance one character. -/
def findAllAux (r : Re) : Nat → Option Char → List Char → List (List (List Char))
  | 0, _, _ => []
  | fuel + 1, prev, rest =>
    match tryMatch r prev rest with
    | some (p', rest', caps) =>
      if rest'.length < rest.length then
        caps :: findAllAux r fuel p' rest'
      else
        match rest with
        | [] => [caps]
        | c :: cs => caps :: findAllAux r fuel (some c) cs
    | none =>
      match rest with
      | [] => []
      | c :: cs => findAllAux r fuel (some c) cs

def reFindAll (r : Re) (text : List Char) : List (List (List Char)) :=
  findAllAux r (text.length + 1) none text

/-! ## The three patterns of `src/settings.py` -/

def kwRe (s : String) : Re := .litCI s.data

def spacesStar : Re := .starCls isSpaceCh

/-- `\s+` -/
def spacesPlus : Re := .seq (.cls isSpaceCh) spacesStar

/-- `(?:контейнер|container|наименование\s+груза|груз|cargo|код|номер|no\.?|№)` -/
def kwAlt : Re :=
  .alt (kwRe "контейнер")
  (.alt (kwRe "container")
  (.alt (.seq (kwRe "наименование") (.seq spacesPlus (kwRe "груза")))
  (.alt (kwRe "груз")
  (.alt (kwRe "cargo")
  (.alt (kwRe "код")
  (.alt (kwRe "номер")
  (.alt (.seq (kwRe "no") (.opt (.cls fun c => c = '.')))
        (kwRe "№"))))))))

/-- `[A-Z]{4}[-\s_]?\d{7}` (with `IGNORECASE`). -/
def codeBody : Re :=
  .seq (.repCls 4 isLatinLetter) (.seq (.opt (.cls isSepCh)) (.repCls 7 isDigitCh))

/-- `(?:№|#|:)?` -/
def sepSym : Re :=
  .opt (.alt (.cls fun c => c = '№') (.alt (.cls fun c => c = '#') (.cls fun c => c = ':')))

/-- `PRIORITY_PATTERN`. -/
def priorityRe : Re :=
  .seq kwAlt (.seq spacesStar (.seq sepSym (.seq spacesStar
    (.seq (.grp codeBody) .wb))))

/-- `FALLBACK_PATTERN`: `\b([A-Z]{4})[-\s_]?(\d{7})\b`. -/
def fallbackRe : Re :=
  .seq .wb (.seq (.grp (.repCls 4 isLatinLetter))
    (.seq (.opt (.cls isSepCh)) (.seq (.grp (.repCls 7 isDigitCh)) .wb)))

/-! ## Candidate collection (`regex_extract_code_direct`, first half) -/

/-- `match.replace(" ", "").replace("-", "").replace("_", "").upper()` -/
def normalizeMatch (m : List Char) : List Char := upperStr (stripSeps m)

/-- Validated candidates of the priority pass. -/
def priorityCandidates (text : List Char) : List (List Char) :=
  (reFindAll priorityRe text).filterMap fun caps =>
    match caps with
    | [m] =>
      let n := normalizeMatch m
      if validationMatch n then some n else none
    | _ => none

/-- Validated candidates of the fallback pass (`findall` yields the two
groups `letters`, `digits`; the source normalizes `f"{letters}{digits}"`). -/
def fallbackCandidates (text : List Char) : List (List Char) :=
  (reFindAll fallbackRe text).filterMap fun caps =>
    match caps with
    | [letters, digits] =>
      let n := normalizeMatch (letters ++ digits)
      if validationMatch n then some n else none
    | _ => none

/-! ## `_calculate_confidence` (`src/tools.py` 33–98) -/

/-- The human-readable Russian reason strings of the source, abstracted to
their branch of origin. -/
inductive Reason where
  | noCandidates | excludedSingle | knownSingle | soleCandidate
  | allExcluded | knownMulti | scoredMulti | emptyOrError
deriving DecidableEq, Repr

structure Scored where
  code : List Char
  confidence : ℚ
  reason : Reason
deriving DecidableEq, Repr

/-- `code[:4].upper()` -/
def pfx4 (code : List Char) : List Char := upperStr (code.take 4)

/-- `"груз" in keyword or "cargo" in keyword or "наименование" in keyword` -/
def cargoKeyword (kw : List Char) : Bool :=
  pySubstr kw "груз".data || pySubstr kw "cargo".data ||
  pySubstr kw "наименование".data

/-- The keyword loop of `_calculate_confidence`: the bonus is granted by
the first keyword present in the lowered text whose first occurrence lies
within 100 characters of the code's first occurrence (`break` fires only
when the bonus is granted). -/
def keywordBonus (tl cl : List Char) : List (List Char) → ℚ
  | [] => 0
  | kw :: rest =>
    match strFind tl kw with
    | none => keywordBonus tl cl rest
    | some kp =>
      match strFind tl cl with
      | none => keywordBonus tl cl rest
      | some cp =>
        if ((kp : ℤ) - cp).natAbs < 100 then
          (0.3 : ℚ) + (if cargoKeyword kw then 0.2 else 0)
        else keywordBonus tl cl rest

/-- Specification-side reading of one step of the keyword loop: keyword
`kw` is present in the lowered text and its first occurrence lies within
100 characters of the first occurrence of the lowered code `cl`. -/
def KwQual (tl cl kw : List Char) : Prop :=
  ∃ kp cp, strFind tl kw = some kp ∧ strFind tl cl = some cp ∧
    ((kp : ℤ) - cp).natAbs < 100

instance (tl cl kw : List Char) : Decidable (KwQual tl cl kw) := by
  unfold KwQual
  match h1 : strFind tl kw, h2 : strFind tl cl with
  | none, _ => exact .isFalse (by simp [h1])
  | some kp, none => exact .isFalse (by simp [h1, h2])
  | some kp, some cp =>
    by_cases h : ((kp : ℤ) - cp).natAbs < 100
    · exact .isTrue ⟨kp, cp, rfl, rfl, h⟩
    · exact .isFalse (by simp [h1, h2]; omega)

/-- Per-candidate score of the multi-candidate branch:
`score = 0.3; if known: += 0.5; keyword loop; += len(code)*0.01`. -/
def candScore (tl code : List Char) : ℚ :=
  let base : ℚ := 0.3
  let s1 := if pfx4 code ∈ KnownContainerPrefixes then base + 0.5 else base
  let s2 := s1 + keywordBonus tl (lowerStr code) ContainerKeywords
  s2 + (code.length : ℚ) * 0.01

/-- Head of Python's stable descending sort by score
(`scored.sort(key=..., reverse=True); scored[0]`): the earliest element
of maximal score — a later element replaces the current best only when
strictly greater. -/
def pickBest {α : Type} (score : α → ℚ) : α → List α → α
  | b, [] => b
  | b, x :: xs => pickBest score (if score x > score b then x else b) xs

/-- The tail of the multi-candidate branch: `if not scored: ... else`
sort descending by score (stable) and take the head; cap at 0.98. -/
def selectBest (scored : List (List Char × ℚ × List Char)) : Scored :=
  match scored with
  | [] => ⟨[], 0, .allExcluded⟩
  | s :: ss =>
    let best := pickBest (fun x => x.2.1) s ss
    ⟨best.1, min best.2.1 0.98,
      if best.2.2 ∈ KnownContainerPrefixes then .knownMulti else .scoredMulti⟩

def calcConfidence (candidates : List (List Char)) (text : List Char) : Scored :=
  match candidates with
  | [] => ⟨[], 0, .noCandidates⟩
  | [code] =>
    let p := pfx4 code
    if p ∈ ExcludedPrefixes then ⟨[], 0, .excludedSingle⟩
    else if p ∈ KnownContainerPrefixes then ⟨code, 0.98, .knownSingle⟩
    else ⟨code, 0.85, .soleCandidate⟩
  | _ :: _ :: _ =>
    let tl := lowerStr text
    selectBest ((candidates.filter fun c => decide (pfx4 c ∉ ExcludedPrefixes)).map
      fun c => (c, candScore tl c, pfx4 c))

/-! ## `regex_extract_code_direct` / `regex_extract_code` -/

structure RegexResult where
  code : List Char
  candidates : List (List Char)
  confidence : ℚ
  reason : Reason
deriving DecidableEq, Repr

def regexExtractDirect (text : List Char) : RegexResult :=
  if text = [] ∨ "ERROR".data.isPrefixOf text then ⟨[], [], 0, .emptyOrError⟩
  else
    let pc := priorityCandidates text
    let raw := if pc.isEmpty then fallbackCandidates text else pc
    let cands := dedupFirst raw
    let r := calcConfidence cands text
    ⟨r.code, cands, r.confidence, r.reason⟩

/-- The `@tool` entry point `regex_extract_code` has the identical body
(`src/tools.py` 142–186 vs 435–478). -/
def regexExtractCode (text : List Char) : RegexResult := regexExtractDirect text

/-! ## `extract_code_with_llm` (`src/agent.py` 35–92)

The GigaChat call and the JSON parse are external collaborators; the
embedding starts at the point where a parsed `{code, confidence}` pair has
been obtained from the model's answer (`src/agent.py` 51 onwards) and
models the defensive post-processing the function applies to it. -/

structure LlmOut where
  code : List Char
  confidence : ℚ
deriving DecidableEq, Repr

/-- The anti-hallucination acceptance condition, exactly as coded: the
normalized code is a substring of the uppercased text, or its first 4
characters and its remaining characters both occur and their first
occurrences lie within 20 characters of each other. -/
def foundInText (text normalized : List Char) : Bool :=
  let tu := upperStr text
  if pySubstr tu normalized then true
  else if pySubstr tu (normalized.take 4) && pySubstr tu (normalized.drop 4) then
    match strFind tu (normalized.take 4), strFind tu (normalized.drop 4) with
    | some i, some j => ((i : ℤ) - j).natAbs < 20
    | _, _ => false
  else false

def llmPostProcess (text rawCode : List Char) (conf : ℚ) : LlmOut :=
  let code := pyStrip rawCode
  if code = [] then ⟨[], 0⟩
  else
    let normalized := upperStr (stripSeps code)
    if ¬ validationMatch normalized then ⟨[], 0⟩
    else if ¬ foundInText text normalized then ⟨[], 0⟩
    else ⟨normalized, min conf 0.95⟩

/-! ## The orchestration policy (`src/main.py` 189–198) -/

/-- `MIN_CONFIDENCE_THRESHOLD`. -/
def minConfidenceThreshold : ℚ := 0.8

structure Combined where
  code : List Char
  confidence : ℚ
  usedLlm : Bool
deriving DecidableEq, Repr

/-- The secondary extractor is consulted when an LLM is configured and the
primary confidence is below threshold or more than one candidate was
found; its result is adopted only on strictly greater confidence. -/
def combinePolicy (rr : RegexResult) (llmEnabled : Bool) (lr : LlmOut) : Combined :=
  if llmEnabled ∧ (rr.confidence < minConfidenceThreshold ∨ 1 < rr.candidates.length) then
    if lr.confidence > rr.confidence then ⟨lr.code, lr.confidence, true⟩
    else ⟨rr.code, rr.confidence, false⟩
  else ⟨rr.code, rr.confidence, false⟩

/-! ## `safe_rename_direct` (`src/tools.py` 354–384)

The filesystem is modelled as the list of file names existing in the one
directory involved (the source manipulates `parent_dir / name` paths; all
claims concern a single directory).  `dry_run` is false throughout claim
C2, so the successful branch removes the source name and adds the target
name. -/

/-- Decimal rendering of a `Nat`, as Python's f-string interpolation
produces it (`fuel` makes the division recursion structural; `n + 1`
always suffices, see `evalDigits_renderNat`). -/
def renderNatAux : Nat → Nat → List Char
  | _, 0 => []
  | n, fuel + 1 =>
    if n < 10 then [Char.ofNat (48 + n)]
    else renderNatAux (n / 10) fuel ++ [Char.ofNat (48 + n % 10)]

def renderNat (n : Nat) : List Char := renderNatAux n (n + 1)

/-- `f"{new_basename}.pdf"` -/
def targetName (base : List Char) : List Char := base ++ ".pdf".data

/-- `f"{new_basename}_{counter}.pdf"` -/
def suffixName (base : List Char) (c : Nat) : List Char :=
  base ++ "_".data ++ renderNat c ++ ".pdf".data

/-- The collision loop: `counter = 1; while new_path.exists(): ...`.
The source's loop always terminates because only finitely many files
exist; the fuel makes that termination explicit and
`findFree_isSome` below proves the fuel `fs.length + 1` always suffices. -/
def findFree (fs : List (List Char)) (base : List Char) : Nat → Nat → Option (List Char)
  | _, 0 => none
  | c, fuel + 1 =>
    let n := suffixName base c
    if n ∈ fs then findFree fs base (c + 1) fuel else some n

/-- `safe_rename_direct` with `dry_run=False`: returns the final path and
the updated directory contents, `none` when the source file is missing
(the source's `"ERROR: файл не найден"` branch). -/
def safeRename (fs : List (List Char)) (path base : List Char) :
    Option (List Char × List (List Char)) :=
  if path ∈ fs then
    let naive := targetName base
    let newPath? : Option (List Char) :=
      if naive ∈ fs ∧ naive ≠ path then findFree fs base 1 (fs.length + 1)
      else some naive
    newPath?.map fun np =>
      (np, if np ≠ path then np :: fs.erase path else fs)
  else none

/-- Sequential renames of several source files to the same base name,
returning the list of final paths and the final directory contents. -/
def renameAll (fs : List (List Char)) (base : List Char) :
    List (List Char) → Option (List (List Char) × List (List Char))
  | [] => some ([], fs)
  | p :: ps =>
    match safeRename fs p base with
    | none => none
    | some (np, fs') =>
      match renameAll fs' base ps with
      | none => none
      | some (finals, fs'') => some (np :: finals, fs'')

/-- Value of a decimal digit character (proof device for
`renderNat` injectivity). -/
def digitVal (c : Char) : Nat := c.toNat - 48

/-- Read a decimal digit string back into a number. -/
def evalDigits (ds : List Char) : Nat :=
  ds.foldl (fun a c => 10 * a + digitVal c) 0

/-! # Helper lemmas -/

theorem digitVal_ofNat {m : Nat} (h : m < 10) :
    digitVal (Char.ofNat (48 + m)) = m := by
  interval_cases m <;> decide

theorem evalDigits_append_digit (xs : List Char) (c : Char) :
    evalDigits (xs ++ [c]) = 10 * evalDigits xs + digitVal c := by
  unfold evalDigits
  rw [List.foldl_append]
  rfl

theorem evalDigits_renderNatAux :
    ∀ (fuel n : Nat), n < fuel → evalDigits (renderNatAux n fuel) = n := by
  intro fuel
  induction fuel with
  | zero => intro n h; omega
  | succ fuel ih =>
    intro n h
    unfold renderNatAux
    split
    · next h10 =>
      simp only [evalDigits, List.foldl_cons, List.foldl_nil, Nat.mul_zero,
        Nat.zero_add]
      exact digitVal_ofNat h10
    · next h10 =>
      rw [evalDigits_append_digit]
      have hlt : n / 10 < n := Nat.div_lt_self (by omega) (by omega)
      rw [ih (n / 10) (by omega)]
      rw [digitVal_ofNat (Nat.mod_lt _ (by omega))]
      omega

theorem renderNat_inj {a b : Nat} (h : renderNat a = renderNat b) : a = b := by
  have ha := evalDigits_renderNatAux (a + 1) a (Nat.lt_succ_self a)
  have hb := evalDigits_renderNatAux (b + 1) b (Nat.lt_succ_self b)
  calc a = evalDigits (renderNat a) := ha.symm
    _ = evalDigits (renderNat b) := by rw [h]
    _ = b := hb

theorem suffixName_inj {base : List Char} {c c' : Nat}
    (h : suffixName base c = suffixName base c') : c = c' := by
  unfold suffixName at h
  exact renderNat_inj (List.append_cancel_left (List.append_cancel_right h))

theorem findFree_not_mem {fs : List (List Char)} {base : List Char} :
    ∀ {fuel c : Nat} {np : List Char}, findFree fs base c fuel = some np →
      np ∉ fs := by
  intro fuel
  induction fuel with
  | zero => intro c np h; exact absurd h (by simp [findFree])
  | succ fuel ih =>
    intro c np h
    unfold findFree at h
    dsimp only at h
    split at h
    · exact ih h
    · next hnm =>
      obtain rfl : suffixName base c = np := by injection h
      exact hnm

theorem findFree_none_mem {fs : List (List Char)} {base : List Char} :
    ∀ (fuel c : Nat), findFree fs base c fuel = none →
      ∀ i < fuel, suffixName base (c + i) ∈ fs := by
  intro fuel
  induction fuel with
  | zero => intro c _ i hi; omega
  | succ fuel ih =>
    intro c h i hi
    unfold findFree at h
    dsimp only at h
    split at h
    · next hmem =>
      cases i with
      | zero => simpa using hmem
      | succ j =>
        have hj := ih (c + 1) h j (by omega)
        have harith : c + (j + 1) = (c + 1) + j := by omega
        rw [harith]
        exact hj
    · exact absurd h (by simp)

theorem findFree_isSome (fs : List (List Char)) (base : List Char) (c : Nat) :
    findFree fs base c (fs.length + 1) ≠ none := by
  intro hnone
  have hall := findFree_none_mem (fs.length + 1) c hnone
  have hnd : ((List.range (fs.length + 1)).map
      fun i => suffixName base (c + i)).Nodup := by
    refine (List.nodup_range _).map ?_
    intro i j hij
    have := suffixName_inj hij
    omega
  have hsub : ((List.range (fs.length + 1)).map
      fun i => suffixName base (c + i)) ⊆ fs := by
    intro x hx
    rcases List.mem_map.mp hx with ⟨i, hi, rfl⟩
    exact hall i (List.mem_range.mp hi)
  have hle := (hnd.subperm hsub).length_le
  simp only [List.length_map, List.length_range] at hle
  omega

/-- What renaming to a fresh target does to the directory contents. -/
theorem freshResult_spec {fs : List (List Char)} {path np : List Char}
    (hfs : fs.Nodup) (_hp : path ∈ fs) (hnp : np ∉ fs) :
    (∀ q ∈ fs, q ≠ path → np ≠ q)
    ∧ (∀ x, x ∈ np :: fs.erase path ↔ (x = np ∨ (x ∈ fs ∧ x ≠ path)))
    ∧ (np :: fs.erase path).Nodup := by
  refine ⟨fun q hq _ he => hnp (he ▸ hq), ?_, ?_⟩
  · intro x
    constructor
    · intro hx
      rcases List.mem_cons.mp hx with rfl | hx
      · exact Or.inl rfl
      · have := hfs.mem_erase_iff.mp hx
        exact Or.inr ⟨this.2, this.1⟩
    · rintro (rfl | ⟨hxf, hxp⟩)
      · exact List.mem_cons_self _ _
      · exact List.mem_cons_of_mem _ (hfs.mem_erase_iff.mpr ⟨hxp, hxf⟩)
  · refine List.nodup_cons.mpr ⟨?_, hfs.erase path⟩
    intro hmem
    exact hnp (hfs.mem_erase_iff.mp hmem).2

/-- Per-call specification of `safe_rename_direct` (`dry_run=False`): the
call succeeds, the final path differs from every other existing file's
path, and the directory afterwards holds exactly the new name plus the
untouched files. -/
theorem safeRename_spec (fs : List (List Char)) (path base : List Char)
    (hfs : fs.Nodup) (hp : path ∈ fs) :
    ∃ np fs', safeRename fs path base = some (np, fs')
      ∧ (∀ q ∈ fs, q ≠ path → np ≠ q)
      ∧ (∀ x, x ∈ fs' ↔ (x = np ∨ (x ∈ fs ∧ x ≠ path)))
      ∧ fs'.Nodup := by
  unfold safeRename
  rw [if_pos hp]
  dsimp only
  by_cases hcol : targetName base ∈ fs ∧ targetName base ≠ path
  · rw [if_pos hcol]
    match hff : findFree fs base 1 (fs.length + 1) with
    | none => exact absurd hff (findFree_isSome fs base 1)
    | some np =>
      have hnp : np ∉ fs := findFree_not_mem hff
      have hnpath : np ≠ path := fun h => hnp (h ▸ hp)
      obtain ⟨h1, h2, h3⟩ := freshResult_spec hfs hp hnp
      exact ⟨np, np :: fs.erase path, by simp [hnpath], h1, h2, h3⟩
  · rw [if_neg hcol]
    push_neg at hcol
    by_cases hnaive : targetName base = path
    · refine ⟨targetName base, fs, by simp [hnaive], ?_, ?_, hfs⟩
      · intro q hq hqp he
        exact hqp (he.symm.trans hnaive)
      · intro x
        constructor
        · intro hx
          by_cases hxp : x = path
          · exact Or.inl (hxp.trans hnaive.symm)
          · exact Or.inr ⟨hx, hxp⟩
        · rintro (rfl | ⟨hxf, _⟩)
          · exact hnaive ▸ hp
          · exact hxf
    · have hnm : targetName base ∉ fs := fun hm => hnaive (hcol hm)
      obtain ⟨h1, h2, h3⟩ := freshResult_spec hfs hp hnm
      exact ⟨targetName base, targetName base :: fs.erase path,
        by simp [hnaive], h1, h2, h3⟩

/-- Sequencing specification: renaming a list of distinct existing files
to one base name succeeds, the final paths are pairwise distinct, and no
final path collides with an untouched original file. -/
theorem renameAll_spec (base : List Char) :
    ∀ (srcs fs : List (List Char)), fs.Nodup → srcs.Nodup →
      (∀ p ∈ srcs, p ∈ fs) →
      ∃ finals fs', renameAll fs base srcs = some (finals, fs')
        ∧ finals.Nodup
        ∧ (∀ x ∈ finals, ∀ q ∈ fs, q ∉ srcs → x ≠ q) := by
  intro srcs
  induction srcs with
  | nil =>
    intro fs hfs _ _
    exact ⟨[], fs, rfl, List.nodup_nil, by simp⟩
  | cons p ps ih =>
    intro fs hfs hsrc hmem
    have hp : p ∈ fs := hmem p (List.mem_cons_self _ _)
    have hpps : p ∉ ps := (List.nodup_cons.mp hsrc).1
    have hps : ps.Nodup := (List.nodup_cons.mp hsrc).2
    obtain ⟨np, fs₁, heq, hnc, hmem₁, hnd₁⟩ := safeRename_spec fs p base hfs hp
    have hps_mem : ∀ q ∈ ps, q ∈ fs₁ := by
      intro q hq
      refine (hmem₁ q).mpr (Or.inr ⟨hmem q (List.mem_cons_of_mem _ hq), ?_⟩)
      intro hqp
      exact hpps (hqp ▸ hq)
    obtain ⟨finals, fs₂, heq₂, hndf, hPf⟩ := ih fs₁ hnd₁ hps hps_mem
    have hnp_mem₁ : np ∈ fs₁ := (hmem₁ np).mpr (Or.inl rfl)
    have hnp_not_ps : np ∉ ps := by
      intro hin
      have hqfs : np ∈ fs := hmem np (List.mem_cons_of_mem _ hin)
      have hqp : np ≠ p := fun h => hpps (h ▸ hin)
      exact (hnc np hqfs hqp) rfl
    have hnp_not_finals : np ∉ finals := by
      intro hin
      exact (hPf np hin np hnp_mem₁ hnp_not_ps) rfl
    refine ⟨np :: finals, fs₂, ?_, List.nodup_cons.mpr ⟨hnp_not_finals, hndf⟩, ?_⟩
    · unfold renameAll
      rw [heq]
      dsimp only
      rw [heq₂]
    · intro x hx q hq hqs
      have hqp : q ≠ p := fun h => hqs (h ▸ List.mem_cons_self p ps)
      have hqps : q ∉ ps := fun h => hqs (List.mem_cons_of_mem _ h)
      rcases List.mem_cons.mp hx with rfl | hx
      · exact hnc q hq hqp
      · exact hPf x hx q ((hmem₁ q).mpr (Or.inr ⟨hq, hqp⟩)) hqps

theorem validationMatch_split (cs : List Char) :
    validationMatch cs = true ↔
      shapeOK cs = true ∨ ∃ t, cs = t ++ ['\n'] ∧ shapeOK t = true := by
  unfold validationMatch
  constructor
  · intro h
    rcases Bool.or_eq_true _ _ |>.mp h with h | h
    · exact Or.inl h
    · match hl : cs.getLast? with
      | none => rw [hl] at h; exact absurd h (by simp)
      | some c =>
        rw [hl] at h
        rcases Bool.and_eq_true _ _ |>.mp h with ⟨hc, hs⟩
        have hc' : c = '\n' := by simpa using hc
        rcases List.getLast?_eq_some_iff.mp hl with ⟨t, ht⟩
        refine Or.inr ⟨t, by rw [ht, hc'], ?_⟩
        rw [ht, List.dropLast_concat] at hs
        exact hs
  · intro h
    rcases h with h | ⟨t, rfl, ht⟩
    · exact Bool.or_eq_true _ _ |>.mpr (Or.inl h)
    · refine Bool.or_eq_true _ _ |>.mpr (Or.inr ?_)
      rw [List.getLast?_concat, List.dropLast_concat]
      simp [ht]

theorem shapeOK_chars {cs : List Char} (h : shapeOK cs = true) :
    ∀ c ∈ cs, isUpperLatin c = true ∨ isDigitCh c = true := by
  intro c hc
  unfold shapeOK at h
  rcases Bool.and_eq_true _ _ |>.mp h with ⟨h1, h3⟩
  rcases Bool.and_eq_true _ _ |>.mp h1 with ⟨_, h2⟩
  rw [← List.take_append_drop 4 cs] at hc
  rcases List.mem_append.mp hc with hc | hc
  · exact Or.inl (List.all_eq_true.mp h2 c hc)
  · exact Or.inr (List.all_eq_true.mp h3 c hc)

theorem validationMatch_chars {cs : List Char} (h : validationMatch cs = true) :
    ∀ c ∈ cs, isUpperLatin c = true ∨ isDigitCh c = true ∨ c = '\n' := by
  intro c hc
  rcases (validationMatch_split cs).mp h with h | ⟨t, rfl, ht⟩
  · rcases shapeOK_chars h c hc with h' | h'
    · exact Or.inl h'
    · exact Or.inr (Or.inl h')
  · rcases List.mem_append.mp hc with hc | hc
    · rcases shapeOK_chars ht c hc with h' | h'
      · exact Or.inl h'
      · exact Or.inr (Or.inl h')
    · simp at hc
      exact Or.inr (Or.inr hc)

theorem pyToUpper_fixed_of_le {c : Char} (hle : c.toNat ≤ 90) : pyToUpper c = c := by
  have h1 : ¬ ((97 ≤ c.toNat && c.toNat ≤ 122) = true) := by
    simp only [Bool.and_eq_true, decide_eq_true_eq, not_and]; omega
  have h2 : ¬ ((0x430 ≤ c.toNat && c.toNat ≤ 0x44F) = true) := by
    simp only [Bool.and_eq_true, decide_eq_true_eq, not_and]; omega
  have h3 : ¬ (c = 'ё') := by
    intro hc; rw [hc] at hle; exact absurd hle (by decide)
  simp [pyToUpper, h1, h2, h3]

theorem shape_char_le {c : Char}
    (h : isUpperLatin c = true ∨ isDigitCh c = true ∨ c = '\n') :
    c.toNat ≤ 90 := by
  rcases h with h | h | h
  · simp only [isUpperLatin, Bool.and_eq_true, decide_eq_true_eq] at h; omega
  · simp only [isDigitCh, Bool.and_eq_true, decide_eq_true_eq] at h; omega
  · rw [h]; decide

theorem shape_char_not_sep {c : Char}
    (h : isUpperLatin c = true ∨ isDigitCh c = true ∨ c = '\n') :
    (!(c = ' ' || c = '-' || c = '_')) = true := by
  have hle := shape_char_le h
  simp only [Bool.not_eq_true', Bool.or_eq_false_iff, decide_eq_false_iff_not]
  refine ⟨⟨?_, ?_⟩, ?_⟩ <;>
    · intro hc
      rcases h with h | h | h <;> rw [hc] at h <;> revert h <;> decide

theorem map_id_of_fixed {f : Char → Char} :
    ∀ (l : List Char), (∀ c ∈ l, f c = c) → l.map f = l
  | [], _ => rfl
  | c :: cs, h => by
    simp only [List.map_cons, h c (List.mem_cons_self _ _)]
    rw [map_id_of_fixed cs fun x hx => h x (List.mem_cons_of_mem _ hx)]

/-- A string passing the validator is left unchanged by the normalizer's
strip-and-uppercase chain. -/
theorem normalized_fixed {r : List Char} (h : validationMatch r = true) :
    upperStr (stripSeps r) = r := by
  have hchars := validationMatch_chars h
  have hstrip : stripSeps r = r :=
    List.filter_eq_self.mpr fun c hc => shape_char_not_sep (hchars c hc)
  rw [hstrip]
  exact map_id_of_fixed r fun c hc =>
    pyToUpper_fixed_of_le (shape_char_le (hchars c hc))

theorem pickBest_mem {α : Type} (g : α → ℚ) :
    ∀ (xs : List α) (b : α), pickBest g b xs = b ∨ pickBest g b xs ∈ xs
  | [], _ => Or.inl rfl
  | x :: xs, b => by
    unfold pickBest
    rcases pickBest_mem g xs (if g x > g b then x else b) with h | h
    · rw [h]
      split
      · exact Or.inr (List.mem_cons_self _ _)
      · exact Or.inl rfl
    · exact Or.inr (List.mem_cons_of_mem _ h)

theorem pickBest_ge_init {α : Type} (g : α → ℚ) :
    ∀ (xs : List α) (b : α), g b ≤ g (pickBest g b xs)
  | [], _ => le_refl _
  | x :: xs, b => by
    unfold pickBest
    split
    · next hgt => exact le_trans (le_of_lt hgt) (pickBest_ge_init g xs x)
    · exact pickBest_ge_init g xs b

/-- The fold that models `sort(reverse=True); scored[0]` picks the
earliest element of maximal score: everything before it scores strictly
less, everything after it scores no more. -/
theorem pickBest_split {α : Type} (g : α → ℚ) :
    ∀ (xs : List α) (b : α),
      ∃ pre post, b :: xs = pre ++ pickBest g b xs :: post
        ∧ (∀ y ∈ pre, g y < g (pickBest g b xs))
        ∧ (∀ y ∈ post, g y ≤ g (pickBest g b xs))
  | [], b => ⟨[], [], rfl, by simp, by simp⟩
  | x :: xs, b => by
    unfold pickBest
    by_cases hgt : g x > g b
    · rw [if_pos hgt]
      obtain ⟨pre, post, heq, hpre, hpost⟩ := pickBest_split g xs x
      refine ⟨b :: pre, post, ?_, ?_, hpost⟩
      · rw [List.cons_append, ← heq]
      · intro y hy
        rcases List.mem_cons.mp hy with rfl | hy
        · exact lt_of_lt_of_le hgt (pickBest_ge_init g xs x)
        · exact hpre y hy
    · rw [if_neg hgt]
      obtain ⟨pre, post, heq, hpre, hpost⟩ := pickBest_split g xs b
      cases pre with
      | nil =>
        simp only [List.nil_append] at heq
        obtain ⟨h1, h2⟩ := List.cons.injEq .. ▸ heq
        refine ⟨[], x :: post, ?_, by simp, ?_⟩
        · simp only [List.nil_append, ← h1, ← h2]
        · intro y hy
          rcases List.mem_cons.mp hy with rfl | hy
          · rw [← h1]; exact le_of_not_lt hgt
          · exact hpost y hy
      | cons p pre' =>
        simp only [List.cons_append] at heq
        obtain ⟨h1, h2⟩ := List.cons.injEq .. ▸ heq
        refine ⟨b :: x :: pre', post, ?_, ?_, hpost⟩
        · simp only [List.cons_append, ← h2]
        · intro y hy
          rcases List.mem_cons.mp hy with rfl | hy
          · have hb := hpre p (List.mem_cons_self _ _)
            rw [← h1] at hb
            exact hb
          · rcases List.mem_cons.mp hy with rfl | hy
            · have hb := hpre p (List.mem_cons_self _ _)
              rw [← h1] at hb
              exact lt_of_le_of_lt (le_of_not_lt hgt) hb
            · exact hpre y (List.mem_cons_of_mem _ hy)

/-- The known-container and excluded prefix tables are disjoint. -/
theorem known_excluded_disjoint :
    ∀ p ∈ KnownContainerPrefixes, p ∉ ExcludedPrefixes := by decide

theorem calcConfidence_multi (a b : List Char) (rest : List (List Char))
    (text : List Char) :
    calcConfidence (a :: b :: rest) text
      = selectBest (((a :: b :: rest).filter
          fun c => decide (pfx4 c ∉ ExcludedPrefixes)).map
        fun c => (c, candScore (lowerStr text) c, pfx4 c)) := rfl

theorem selectBest_cases (scored : List (List Char × ℚ × List Char)) :
    (scored = [] ∧ selectBest scored = ⟨[], 0, .allExcluded⟩)
    ∨ ∃ best, best ∈ scored
        ∧ (selectBest scored).code = best.1
        ∧ (selectBest scored).confidence = min best.2.1 0.98 := by
  cases scored with
  | nil => exact Or.inl ⟨rfl, rfl⟩
  | cons s ss =>
    refine Or.inr ⟨pickBest (fun x => x.2.1) s ss, ?_, rfl, rfl⟩
    rcases pickBest_mem (fun x => x.2.1) ss s with h | h
    · rw [h]; exact List.mem_cons_self _ _
    · exact List.mem_cons_of_mem _ h

/-- Unfolding of the anti-hallucination check: acceptance means the
normalized code occurs literally, or both its halves occur with first
occurrences within 20 characters. -/
theorem foundInText_spec {text n : List Char} (h : foundInText text n = true) :
    pySubstr (upperStr text) n = true
    ∨ ∃ i j, strFind (upperStr text) (n.take 4) = some i
        ∧ strFind (upperStr text) (n.drop 4) = some j
        ∧ ((i : ℤ) - j).natAbs < 20 := by
  unfold foundInText at h
  dsimp only at h
  split at h
  · next hsub => exact Or.inl hsub
  · split at h
    · match h1 : strFind (upperStr text) (n.take 4),
            h2 : strFind (upperStr text) (n.drop 4) with
      | some i, some j =>
        rw [h1, h2] at h
        refine Or.inr ⟨i, j, rfl, rfl, by simpa using h⟩
      | none, _ =>
        rw [h1] at h
        exact absurd h (by simp)
      | some i, none =>
        rw [h1, h2] at h
        exact absurd h (by simp)
    · exact absurd h (by simp)

/-- The three outcomes of the LLM post-processing: rejection, or
acceptance of the normalized code after both checks passed. -/
theorem llmPostProcess_cases (text raw : List Char) (conf : ℚ) :
    llmPostProcess text raw conf = ⟨[], 0⟩
    ∨ (llmPostProcess text raw conf
        = ⟨upperStr (stripSeps (pyStrip raw)), min conf 0.95⟩
       ∧ validationMatch (upperStr (stripSeps (pyStrip raw))) = true
       ∧ foundInText text (upperStr (stripSeps (pyStrip raw))) = true) := by
  unfold llmPostProcess
  dsimp only
  split
  · exact Or.inl rfl
  · split
    · exact Or.inl rfl
    · next h2 =>
      split
      · exact Or.inl rfl
      · next h3 =>
        exact Or.inr ⟨rfl, by simpa using h2, by simpa using h3⟩

/-- The keyword loop awards its bonus exactly for the first keyword (in
table order) that is present in the text with its first occurrence within
100 characters of the code's, and awards nothing when no keyword
qualifies. -/
theorem keywordBonus_spec (tl cl : List Char) :
    ∀ kws : List (List Char),
      (keywordBonus tl cl kws = 0 ∧ ∀ kw ∈ kws, ¬ KwQual tl cl kw)
      ∨ (∃ pre kw post, kws = pre ++ kw :: post
          ∧ KwQual tl cl kw
          ∧ (∀ k ∈ pre, ¬ KwQual tl cl k)
          ∧ keywordBonus tl cl kws
              = 0.3 + (if cargoKeyword kw then (0.2 : ℚ) else 0)) := by
  intro kws
  induction kws with
  | nil => exact Or.inl ⟨rfl, by simp⟩
  | cons kw rest ih =>
    have step :
        (¬ KwQual tl cl kw ∧ keywordBonus tl cl (kw :: rest) = keywordBonus tl cl rest)
        ∨ (KwQual tl cl kw ∧ keywordBonus tl cl (kw :: rest)
            = 0.3 + (if cargoKeyword kw then (0.2 : ℚ) else 0)) := by
      cases h1 : strFind tl kw with
      | none =>
        refine Or.inl ⟨?_, by simp only [keywordBonus, h1]⟩
        rintro ⟨kp, cp, hkp, _, _⟩
        rw [h1] at hkp
        exact absurd hkp (by simp)
      | some kp =>
        cases h2 : strFind tl cl with
        | none =>
          refine Or.inl ⟨?_, by simp only [keywordBonus, h1, h2]⟩
          rintro ⟨kp', cp', _, hcp, _⟩
          rw [h2] at hcp
          exact absurd hcp (by simp)
        | some cp =>
          by_cases hlt : ((kp : ℤ) - cp).natAbs < 100
          · refine Or.inr ⟨⟨kp, cp, h1, h2, hlt⟩, ?_⟩
            simp only [keywordBonus, h1, h2, if_pos hlt]
          · refine Or.inl ⟨?_, by simp only [keywordBonus, h1, h2, if_neg hlt]⟩
            rintro ⟨kp', cp', hkp, hcp, habs⟩
            rw [h1] at hkp
            rw [h2] at hcp
            obtain rfl : kp = kp' := Option.some.inj hkp
            obtain rfl : cp = cp' := Option.some.inj hcp
            exact hlt habs
    rcases step with ⟨hnq, hstep⟩ | ⟨hq, hstep⟩
    · rcases ih with ⟨hz, hall⟩ | ⟨pre, kw', post, hsplit, hq', hpre, hb⟩
      · refine Or.inl ⟨hstep.trans hz, ?_⟩
        intro k hk
        rcases List.mem_cons.mp hk with rfl | hk
        · exact hnq
        · exact hall k hk
      · refine Or.inr ⟨kw :: pre, kw', post, by simp [hsplit], hq', ?_,
          hstep.trans hb⟩
        intro k hk
        rcases List.mem_cons.mp hk with rfl | hk
        · exact hnq
        · exact hpre k hk
    · exact Or.inr ⟨[], kw, rest, rfl, hq, by simp, hstep⟩

/-- `pickBest` commutes with tagging each element. -/
theorem pickBest_map {α β : Type} (g : α → ℚ) (f : β → α) :
    ∀ (xs : List β) (b : β),
      pickBest g (f b) (xs.map f) = f (pickBest (fun y => g (f y)) b xs)
  | [], _ => rfl
  | x :: xs, b => by
    rw [List.map_cons]
    show pickBest g (if g (f x) > g (f b) then f x else f b) (xs.map f)
        = f (pickBest (fun y => g (f y)) (if g (f x) > g (f b) then x else b) xs)
    rw [show (if g (f x) > g (f b) then f x else f b)
        = f (if g (f x) > g (f b) then x else b) from (apply_ite f _ _ _).symm]
    exact pickBest_map g f xs _

/-- The accumulation of `_calculate_confidence`'s scoring loop written as
the closed sum of the specification. -/
theorem candScore_formula (tl code : List Char) :
    candScore tl code
      = 0.3 + (if pfx4 code ∈ KnownContainerPrefixes then (0.5 : ℚ) else 0)
        + keywordBonus tl (lowerStr code) ContainerKeywords
        + (code.length : ℚ) * 0.01 := by
  unfold candScore
  dsimp only
  by_cases hk : pfx4 code ∈ KnownContainerPrefixes
  · simp only [if_pos hk]
    try ring
  · simp only [if_neg hk]
    try ring

/-! # Claim theorems -/

/-- C1: for the text `"Коды: AAAA1111111, BBBB2222222, контейнер №
CCCC3333333"`, the extraction pipeline (pattern matcher followed by
candidate scorer, `regex_extract_code_direct`) selects `CCCC3333333`:
the keyword-anchored priority pass finds only the code adjacent to
`контейнер №`, so keyword proximity wins over first occurrence. -/
theorem c1_keyword_proximity_selection :
    (regexExtractDirect
        "Коды: AAAA1111111, BBBB2222222, контейнер № CCCC3333333".data).code
      = "CCCC3333333".data := by decide

/-- C10: any input starting with `"ERROR"` makes `regex_extract_code`
return code `""`, an empty candidate list and confidence `0.0`,
regardless of what else the string contains. -/
theorem c10_error_text_short_circuit (text : List Char)
    (h : "ERROR".data.isPrefixOf text = true) :
    regexExtractCode text = ⟨[], [], 0, .emptyOrError⟩ := by
  unfold regexExtractCode regexExtractDirect
  rw [if_pos (Or.inr h)]

/-- C10 witness: a concrete `"ERROR..."` string that does contain a
lexically valid container code is still rejected wholesale. -/
theorem c10_error_text_short_circuit_witness :
    ("ERROR".data.isPrefixOf "ERROR: файл не найден, код ABCD1234567".data = true)
    ∧ shapeOK "ABCD1234567".data = true
    ∧ pySubstr "ERROR: файл не найден, код ABCD1234567".data "ABCD1234567".data = true
    ∧ regexExtractCode "ERROR: файл не найден, код ABCD1234567".data
        = ⟨[], [], 0, .emptyOrError⟩ :=
  ⟨by decide, by decide, by decide, c10_error_text_short_circuit _ (by decide)⟩

/-- C3 counterexample: the claim "`normalize(s)` succeeds iff the
stripped-uppercased form matches exactly 4 letters + 7 digits (11
characters total)" fails at `s = "ABCD1234567\n"`: Python's `$` also
matches just before a trailing newline, so normalization succeeds on a
12-character string. -/
theorem c3_counterexample :
    (∃ r, normalizeCode "ABCD1234567\n".data = .ok r)
    ∧ ¬ shapeOK (upperStr (stripSeps "ABCD1234567\n".data)) = true :=
  ⟨⟨"ABCD1234567\n".data, by decide⟩, by decide⟩

/-- C3 (amended): `normalize(s)` succeeds iff the stripped-uppercased
form is exactly 4 letters + 7 digits, or that shape followed by a single
trailing newline (the `$` of `^[A-Z]{4}\d{7}$` also matches before a
final newline). -/
theorem c3_shape_iff_amended (s : List Char) :
    (∃ r, normalizeCode s = .ok r) ↔
      (shapeOK (upperStr (stripSeps s)) = true
       ∨ ∃ t, upperStr (stripSeps s) = t ++ ['\n'] ∧ shapeOK t = true) := by
  rw [← validationMatch_split]
  constructor
  · rintro ⟨r, h⟩
    unfold normalizeCode at h
    split at h
    · exact absurd h (by simp)
    · dsimp only at h
      split at h
      · next hv => exact hv
      · exact absurd h (by simp)
  · intro hv
    refine ⟨upperStr (stripSeps s), ?_⟩
    have hs : ¬ s = [] := by
      intro h0
      rw [h0] at hv
      exact absurd hv (by decide)
    simp [normalizeCode, hs, hv]

/-- C9: normalization is idempotent — whenever `normalize` succeeds, its
result normalizes to itself unchanged. -/
theorem c9_normalize_idempotent (c r : List Char)
    (h : normalizeCode c = .ok r) : normalizeCode r = .ok r := by
  unfold normalizeCode at h
  split at h
  · exact absurd h (by simp)
  · dsimp only at h
    split at h
    · next hv =>
      have hEq : upperStr (stripSeps c) = r := by
        injection h
      rw [hEq] at hv
      have hr : ¬ r = [] := by
        intro h0
        rw [h0] at hv
        exact absurd hv (by decide)
      have hfix := normalized_fixed hv
      simp [normalizeCode, hr, hfix, hv]
    · exact absurd h (by simp)

/-- C9 witness. -/
theorem c9_normalize_idempotent_witness :
    normalizeCode "abcd-1234567".data = .ok "ABCD1234567".data
    ∧ normalizeCode "ABCD1234567".data = .ok "ABCD1234567".data :=
  ⟨by decide, c9_normalize_idempotent "abcd-1234567".data _ (by decide)⟩

/-- C7: the fallback (bare-shape) pass determines the candidate set iff
the priority (keyword-anchored) pass yielded zero validated candidates;
empty text yields the empty result without error. -/
theorem c7_fallback_only_when_priority_empty :
    (∀ text : List Char, ¬ text = [] → "ERROR".data.isPrefixOf text = false →
       priorityCandidates text ≠ [] →
       (regexExtractDirect text).candidates = dedupFirst (priorityCandidates text))
    ∧ (∀ text : List Char, ¬ text = [] → "ERROR".data.isPrefixOf text = false →
       priorityCandidates text = [] →
       (regexExtractDirect text).candidates = dedupFirst (fallbackCandidates text))
    ∧ regexExtractDirect [] = ⟨[], [], 0, .emptyOrError⟩ := by
  refine ⟨?_, ?_, by decide⟩
  · intro text h1 h2 h3
    have hcond : ¬ (text = [] ∨ "ERROR".data.isPrefixOf text = true) := by
      rintro (hc | hc)
      · exact h1 hc
      · rw [h2] at hc; exact absurd hc (by decide)
    simp only [regexExtractDirect, if_neg hcond]
    simp [List.isEmpty_iff, h3]
  · intro text h1 h2 h3
    have hcond : ¬ (text = [] ∨ "ERROR".data.isPrefixOf text = true) := by
      rintro (hc | hc)
      · exact h1 hc
      · rw [h2] at hc; exact absurd hc (by decide)
    simp only [regexExtractDirect, if_neg hcond]
    simp [List.isEmpty_iff, h3]

/-- C7 witness: one text where the priority pass fires and one where only
the fallback pass does. -/
theorem c7_fallback_only_when_priority_empty_witness :
    (priorityCandidates "код ABCD1234567".data ≠ []
      ∧ (regexExtractDirect "код ABCD1234567".data).candidates
          = dedupFirst (priorityCandidates "код ABCD1234567".data))
    ∧ (priorityCandidates "просто XYZA1234567".data = []
      ∧ (regexExtractDirect "просто XYZA1234567".data).candidates
          = dedupFirst (fallbackCandidates "просто XYZA1234567".data)) :=
  ⟨⟨by decide, c7_fallback_only_when_priority_empty.1 _ (by decide) (by decide)
      (by decide)⟩,
   ⟨by decide, c7_fallback_only_when_priority_empty.2.1 _ (by decide) (by decide)
      (by decide)⟩⟩

/-- C8: every `ScoredResult` the candidate scorer produces from a set of
(nonempty-string) candidates satisfies: empty code implies confidence
exactly `0.0`, and the confidence never exceeds `0.98`. -/
theorem c8_scored_result_invariant (cands : List (List Char)) (text : List Char)
    (h : ∀ c ∈ cands, c ≠ []) :
    ((calcConfidence cands text).code = [] →
        (calcConfidence cands text).confidence = 0)
    ∧ (calcConfidence cands text).confidence ≤ 0.98 := by
  match cands, h with
  | [], h => exact ⟨fun _ => rfl, by norm_num [calcConfidence]⟩
  | [c], h =>
    have hc := h c (List.mem_cons_self _ _)
    by_cases h1 : pfx4 c ∈ ExcludedPrefixes
    · have hcc : calcConfidence [c] text = ⟨[], 0, .excludedSingle⟩ := by
        simp [calcConfidence, h1]
      rw [hcc]
      exact ⟨fun _ => rfl, by norm_num⟩
    · by_cases h2 : pfx4 c ∈ KnownContainerPrefixes
      · have hcc : calcConfidence [c] text = ⟨c, 0.98, .knownSingle⟩ := by
          simp [calcConfidence, h1, h2]
        rw [hcc]
        exact ⟨fun hcode => absurd hcode hc, by norm_num⟩
      · have hcc : calcConfidence [c] text = ⟨c, 0.85, .soleCandidate⟩ := by
          simp [calcConfidence, h1, h2]
        rw [hcc]
        exact ⟨fun hcode => absurd hcode hc, by norm_num⟩
  | a :: b :: rest, h =>
    rw [calcConfidence_multi]
    rcases selectBest_cases (((a :: b :: rest).filter
        fun c => decide (pfx4 c ∉ ExcludedPrefixes)).map
      fun c => (c, candScore (lowerStr text) c, pfx4 c)) with
      ⟨_, hE⟩ | ⟨best, hmem, hcode, hconf⟩
    · rw [hE]; exact ⟨fun _ => rfl, by norm_num⟩
    · rw [hcode, hconf]
      constructor
      · intro hbc
        rcases List.mem_map.mp hmem with ⟨c', hc', hfc⟩
        have hb1 : best.1 = c' := by rw [← hfc]
        rw [hb1] at hbc
        exact absurd hbc (h c' (List.mem_of_mem_filter hc'))
      · exact min_le_right _ _

/-- C8 witness. -/
theorem c8_scored_result_invariant_witness :
    (∀ c ∈ ["QWER1234567".data, "OKPO7654321".data], c ≠ [])
    ∧ (((calcConfidence ["QWER1234567".data, "OKPO7654321".data] "т".data).code = [] →
          (calcConfidence ["QWER1234567".data, "OKPO7654321".data] "т".data).confidence = 0)
       ∧ (calcConfidence ["QWER1234567".data, "OKPO7654321".data] "т".data).confidence
            ≤ 0.98) :=
  ⟨by decide, c8_scored_result_invariant _ "т".data (by decide)⟩

/-- C4: the candidate scorer never selects a code whose 4-letter prefix is
in the excluded-prefix table; a sole excluded candidate and an
all-excluded candidate set are both rejected with code `""` and
confidence `0.0`. -/
theorem c4_exclusion_invariant :
    (∀ (cands : List (List Char)) (text : List Char),
        (calcConfidence cands text).code ≠ [] →
        pfx4 ((calcConfidence cands text).code) ∉ ExcludedPrefixes)
    ∧ (∀ (c text : List Char), pfx4 c ∈ ExcludedPrefixes →
        (calcConfidence [c] text).code = []
        ∧ (calcConfidence [c] text).confidence = 0)
    ∧ (∀ (cands : List (List Char)) (text : List Char), cands ≠ [] →
        (∀ c ∈ cands, pfx4 c ∈ ExcludedPrefixes) →
        (calcConfidence cands text).code = []
        ∧ (calcConfidence cands text).confidence = 0) := by
  refine ⟨?_, ?_, ?_⟩
  · intro cands text hne
    match cands with
    | [] => exact absurd rfl hne
    | [c] =>
      by_cases h1 : pfx4 c ∈ ExcludedPrefixes
      · have hcc : calcConfidence [c] text = ⟨[], 0, .excludedSingle⟩ := by
          simp [calcConfidence, h1]
        rw [hcc] at hne
        exact absurd rfl hne
      · by_cases h2 : pfx4 c ∈ KnownContainerPrefixes
        · have hcc : calcConfidence [c] text = ⟨c, 0.98, .knownSingle⟩ := by
            simp [calcConfidence, h1, h2]
          rw [hcc]
          exact h1
        · have hcc : calcConfidence [c] text = ⟨c, 0.85, .soleCandidate⟩ := by
            simp [calcConfidence, h1, h2]
          rw [hcc]
          exact h1
    | a :: b :: rest =>
      rw [calcConfidence_multi] at hne ⊢
      rcases selectBest_cases (((a :: b :: rest).filter
          fun c => decide (pfx4 c ∉ ExcludedPrefixes)).map
        fun c => (c, candScore (lowerStr text) c, pfx4 c)) with
        ⟨_, hE⟩ | ⟨best, hmem, hcode, _⟩
      · rw [hE] at hne
        exact absurd rfl hne
      · rw [hcode]
        rcases List.mem_map.mp hmem with ⟨c', hc', hfc⟩
        have hb1 : best.1 = c' := by rw [← hfc]
        rw [hb1]
        have hdec := (List.mem_filter.mp hc').2
        simpa using hdec
  · intro c text h1
    have hcc : calcConfidence [c] text = ⟨[], 0, .excludedSingle⟩ := by
      simp [calcConfidence, h1]
    rw [hcc]
    exact ⟨rfl, rfl⟩
  · intro cands text hne hall
    match cands with
    | [c] =>
      have h1 := hall c (List.mem_cons_self _ _)
      have hcc : calcConfidence [c] text = ⟨[], 0, .excludedSingle⟩ := by
        simp [calcConfidence, h1]
      rw [hcc]
      exact ⟨rfl, rfl⟩
    | a :: b :: rest =>
      rw [calcConfidence_multi]
      have hfil : (a :: b :: rest).filter
          (fun c => decide (pfx4 c ∉ ExcludedPrefixes)) = [] := by
        rw [List.filter_eq_nil_iff]
        intro c hc
        simp [hall c hc]
      rw [hfil]
      exact ⟨rfl, rfl⟩

/-- C4 witness: the sole candidate `OKPO1234567` is rejected outright. -/
theorem c4_exclusion_invariant_witness :
    pfx4 "OKPO1234567".data ∈ ExcludedPrefixes
    ∧ (calcConfidence ["OKPO1234567".data] "счёт".data).code = []
    ∧ (calcConfidence ["OKPO1234567".data] "счёт".data).confidence = 0 :=
  ⟨by decide,
   c4_exclusion_invariant.2.1 "OKPO1234567".data "счёт".data (by decide)⟩

/-- C5: the orchestration adopts the secondary (LLM) result only when its
confidence strictly exceeds the primary's, and the secondary extractor
returns a non-empty code only after verifying the code literally occurs
in the source text (full normalized substring, or 4-letter prefix and
7-digit suffix within 20 characters); otherwise it returns `""` with
confidence `0.0`. -/
theorem c5_secondary_adoption_policy :
    (∀ (rr : RegexResult) (en : Bool) (lr : LlmOut),
        (combinePolicy rr en lr).usedLlm = true → lr.confidence > rr.confidence)
    ∧ (∀ (rr : RegexResult) (en : Bool) (lr : LlmOut),
        ¬ lr.confidence > rr.confidence →
        combinePolicy rr en lr = ⟨rr.code, rr.confidence, false⟩)
    ∧ (∀ (text raw : List Char) (conf : ℚ),
        (llmPostProcess text raw conf).code ≠ [] →
        pySubstr (upperStr text) ((llmPostProcess text raw conf).code) = true
        ∨ ∃ i j,
            strFind (upperStr text) (((llmPostProcess text raw conf).code).take 4)
              = some i
            ∧ strFind (upperStr text) (((llmPostProcess text raw conf).code).drop 4)
              = some j
            ∧ ((i : ℤ) - j).natAbs < 20)
    ∧ (∀ (text raw : List Char) (conf : ℚ),
        foundInText text (upperStr (stripSeps (pyStrip raw))) = false →
        llmPostProcess text raw conf = ⟨[], 0⟩)
    ∧ (∀ (text raw : List Char) (conf : ℚ),
        (llmPostProcess text raw conf).code = [] →
        (llmPostProcess text raw conf).confidence = 0) := by
  refine ⟨?_, ?_, ?_, ?_, ?_⟩
  · intro rr en lr h
    unfold combinePolicy at h
    split at h
    · split at h
      · next hgt => exact hgt
      · exact absurd h (by simp)
    · exact absurd h (by simp)
  · intro rr en lr hle
    unfold combinePolicy
    rw [if_neg hle]
    split <;> rfl
  · intro text raw conf h
    rcases llmPostProcess_cases text raw conf with hc | ⟨hc, _, hfound⟩
    · rw [hc] at h
      exact absurd rfl h
    · rw [hc]
      exact foundInText_spec hfound
  · intro text raw conf hnf
    rcases llmPostProcess_cases text raw conf with hc | ⟨_, _, hfound⟩
    · exact hc
    · rw [hnf] at hfound
      exact absurd hfound (by simp)
  · intro text raw conf h
    rcases llmPostProcess_cases text raw conf with hc | ⟨hc, hval, _⟩
    · rw [hc]
    · rw [hc] at h
      dsimp at h
      rw [h] at hval
      exact absurd hval (by decide)

/-- C2: renaming any sequence of distinct existing files to one base name
in one directory always succeeds, yields pairwise-distinct final paths,
and no final path ever equals an existing different (untouched) file's
path; single calls likewise never clobber a different existing file. -/
theorem c2_collision_safe_rename (fs : List (List Char)) (base : List Char)
    (srcs : List (List Char)) (hfs : fs.Nodup) (hs : srcs.Nodup)
    (hmem : ∀ p ∈ srcs, p ∈ fs) :
    (∃ finals fs', renameAll fs base srcs = some (finals, fs')
       ∧ finals.Nodup
       ∧ ∀ x ∈ finals, ∀ q ∈ fs, q ∉ srcs → x ≠ q)
    ∧ (∀ path np fs', safeRename fs path base = some (np, fs') →
         ∀ q ∈ fs, q ≠ path → np ≠ q) := by
  refine ⟨renameAll_spec base srcs fs hfs hs hmem, ?_⟩
  intro path np fs' h q hq hqp
  by_cases hp : path ∈ fs
  · obtain ⟨np', fs'', heq, hnc, _, _⟩ := safeRename_spec fs path base hfs hp
    rw [heq] at h
    have h1 : np' = np := congrArg Prod.fst (Option.some.inj h)
    rw [← h1]
    exact hnc q hq hqp
  · rw [safeRename, if_neg hp] at h
    exact absurd h (by simp)

/-- C2 witness: two documents both renamed to base `ABCD1234567` become
`ABCD1234567.pdf` and `ABCD1234567_1.pdf`. -/
theorem c2_collision_safe_rename_witness :
    (["doc1.pdf".data, "doc2.pdf".data] : List (List Char)).Nodup
    ∧ (∃ finals fs',
        renameAll ["doc1.pdf".data, "doc2.pdf".data] "ABCD1234567".data
            ["doc1.pdf".data, "doc2.pdf".data] = some (finals, fs')
        ∧ finals.Nodup
        ∧ ∀ x ∈ finals, ∀ q ∈ ["doc1.pdf".data, "doc2.pdf".data],
            q ∉ (["doc1.pdf".data, "doc2.pdf".data] : List (List Char)) → x ≠ q)
    ∧ (renameAll ["doc1.pdf".data, "doc2.pdf".data] "ABCD1234567".data
          ["doc1.pdf".data, "doc2.pdf".data]).map Prod.fst
        = some ["ABCD1234567.pdf".data, "ABCD1234567_1.pdf".data] :=
  ⟨by decide,
   (c2_collision_safe_rename ["doc1.pdf".data, "doc2.pdf".data]
      "ABCD1234567".data ["doc1.pdf".data, "doc2.pdf".data]
      (by decide) (by decide) (by decide)).1,
   by decide⟩

/-- C5 witness: a secondary result with lower confidence leaves the
primary untouched. -/
theorem c5_secondary_adoption_policy_witness :
    ¬ (0.5 : ℚ) > (0.85 : ℚ)
    ∧ combinePolicy
        ⟨"QWER1234567".data, ["QWER1234567".data], 0.85, .soleCandidate⟩
        true ⟨[], 0.5⟩
      = ⟨"QWER1234567".data, 0.85, false⟩ :=
  ⟨by norm_num,
   c5_secondary_adoption_policy.2.1
     ⟨"QWER1234567".data, ["QWER1234567".data], 0.85, .soleCandidate⟩
     true ⟨[], 0.5⟩ (by norm_num)⟩

/-- C6: with two or more candidates, each non-excluded candidate's score
is `0.30` base, plus `0.50` for a known-container prefix, plus the
keyword-window bonus (`0.30`, and a further `0.20` when the matching
keyword denotes cargo/cargo name), plus `0.01` per character of the
candidate; the scorer selects the highest-scoring survivor, ties broken
by earlier insertion order, with confidence capped at `0.98`. -/
theorem c6_multi_candidate_scoring (cands : List (List Char)) (text : List Char)
    (h2 : 2 ≤ cands.length) :
    (∀ code ∈ cands, pfx4 code ∉ ExcludedPrefixes →
       candScore (lowerStr text) code
         = 0.3 + (if pfx4 code ∈ KnownContainerPrefixes then (0.5 : ℚ) else 0)
           + keywordBonus (lowerStr text) (lowerStr code) ContainerKeywords
           + (code.length : ℚ) * 0.01
       ∧ ((keywordBonus (lowerStr text) (lowerStr code) ContainerKeywords = 0
             ∧ ∀ kw ∈ ContainerKeywords,
                 ¬ KwQual (lowerStr text) (lowerStr code) kw)
          ∨ ∃ pre kw post, ContainerKeywords = pre ++ kw :: post
              ∧ KwQual (lowerStr text) (lowerStr code) kw
              ∧ (∀ k ∈ pre, ¬ KwQual (lowerStr text) (lowerStr code) k)
              ∧ keywordBonus (lowerStr text) (lowerStr code) ContainerKeywords
                  = 0.3 + (if cargoKeyword kw then (0.2 : ℚ) else 0)))
    ∧ (∀ keep, keep = cands.filter (fun c => decide (pfx4 c ∉ ExcludedPrefixes)) →
        keep ≠ [] →
        ∃ pre post, keep = pre ++ (calcConfidence cands text).code :: post
          ∧ (calcConfidence cands text).confidence
              = min (candScore (lowerStr text) ((calcConfidence cands text).code))
                  0.98
          ∧ (∀ y ∈ pre, candScore (lowerStr text) y
              < candScore (lowerStr text) ((calcConfidence cands text).code))
          ∧ (∀ y ∈ post, candScore (lowerStr text) y
              ≤ candScore (lowerStr text) ((calcConfidence cands text).code))) := by
  constructor
  · intro code _ _
    exact ⟨candScore_formula _ _,
      keywordBonus_spec (lowerStr text) (lowerStr code) ContainerKeywords⟩
  · intro keep hkeep hne
    obtain ⟨a, b, rest, rfl⟩ : ∃ a b rest, cands = a :: b :: rest := by
      match cands, h2 with
      | a :: b :: rest, _ => exact ⟨a, b, rest, rfl⟩
    subst hkeep
    rw [calcConfidence_multi]
    cases hc : (a :: b :: rest).filter
        (fun c => decide (pfx4 c ∉ ExcludedPrefixes)) with
    | nil => exact absurd hc hne
    | cons c cs =>
      have hpb : pickBest (fun x => x.2.1)
            ((fun y => (y, candScore (lowerStr text) y, pfx4 y)) c)
            (cs.map fun y => (y, candScore (lowerStr text) y, pfx4 y))
          = (fun y => (y, candScore (lowerStr text) y, pfx4 y))
              (pickBest (fun y => candScore (lowerStr text) y) c cs) := by
        rw [pickBest_map (fun x => x.2.1)
          (fun y => (y, candScore (lowerStr text) y, pfx4 y)) cs c]
      have hcode : (selectBest ((c :: cs).map
            fun y => (y, candScore (lowerStr text) y, pfx4 y))).code
          = pickBest (fun y => candScore (lowerStr text) y) c cs := by
        show (pickBest (fun x => x.2.1)
            ((fun y => (y, candScore (lowerStr text) y, pfx4 y)) c)
            (cs.map fun y => (y, candScore (lowerStr text) y, pfx4 y))).1 = _
        rw [hpb]
      have hconf : (selectBest ((c :: cs).map
            fun y => (y, candScore (lowerStr text) y, pfx4 y))).confidence
          = min (candScore (lowerStr text)
              (pickBest (fun y => candScore (lowerStr text) y) c cs)) 0.98 := by
        show min (pickBest (fun x => x.2.1)
            ((fun y => (y, candScore (lowerStr text) y, pfx4 y)) c)
            (cs.map fun y => (y, candScore (lowerStr text) y, pfx4 y))).2.1 0.98 = _
        rw [hpb]
      obtain ⟨pre, post, hsplit, hpre, hpost⟩ :=
        pickBest_split (fun y => candScore (lowerStr text) y) cs c
      refine ⟨pre, post, ?_, ?_, ?_, ?_⟩
      · rw [hcode]; exact hsplit
      · rw [hconf, hcode]
      · intro y hy; rw [hcode]; exact hpre y hy
      · intro y hy; rw [hcode]; exact hpost y hy

/-- C6 witness: with candidates `AAAA1111111` and `TKRU2222222` the
known-prefix candidate wins and the decomposition exists. -/
theorem c6_multi_candidate_scoring_witness :
    2 ≤ (["AAAA1111111".data, "TKRU2222222".data] : List (List Char)).length
    ∧ (["AAAA1111111".data, "TKRU2222222".data] : List (List Char)).filter
        (fun c => decide (pfx4 c ∉ ExcludedPrefixes)) ≠ []
    ∧ (∃ pre post,
        (["AAAA1111111".data, "TKRU2222222".data] : List (List Char)).filter
            (fun c => decide (pfx4 c ∉ ExcludedPrefixes))
          = pre ++ (calcConfidence ["AAAA1111111".data, "TKRU2222222".data]
              "т".data).code :: post
        ∧ (calcConfidence ["AAAA1111111".data, "TKRU2222222".data]
              "т".data).confidence
            = min (candScore (lowerStr "т".data)
                ((calcConfidence ["AAAA1111111".data, "TKRU2222222".data]
                  "т".data).code)) 0.98
        ∧ (∀ y ∈ pre, candScore (lowerStr "т".data) y
            < candScore (lowerStr "т".data)
                ((calcConfidence ["AAAA1111111".data, "TKRU2222222".data]
                  "т".data).code))
        ∧ (∀ y ∈ post, candScore (lowerStr "т".data) y
            ≤ candScore (lowerStr "т".data)
                ((calcConfidence ["AAAA1111111".data, "TKRU2222222".data]
                  "т".data).code))) :=
  ⟨by decide, by decide,
   (c6_multi_candidate_scoring ["AAAA1111111".data, "TKRU2222222".data]
      "т".data (by decide)).2 _ rfl (by decide)⟩

end PdfAgent

